import Mathlib

/-!
Verification of the model-agnostic Monte Carlo Tree Search engine
(`MonteCarloTreeSearch.py`).

The source is shallowly embedded: numpy float arrays become `List ℚ`,
the tree dictionary becomes an association list from action-sequence keys
to node records, and the stochastic draw of `np.random.choice` becomes an
abstract sampler `samp : ℕ → ℕ → List ℚ → ℕ` that receives the current
random-state counter, the action count and the probability vector and
returns the drawn index (the counter advances by one per draw, modelling
the global numpy random state).
-/

set_option linter.unusedVariables false

namespace MCTS

/-- A path key: the tuple of actions leading from the root to a node. -/
abbrev Key := List ℕ

/-- One tree node, mirroring the per-key dictionary of the source with
fields `state`, `visits`, `values`, `policy`, `stop`. -/
structure Node (σ : Type) where
  state : σ
  visits : List ℚ
  values : List ℚ
  policy : List ℚ
  stop : Bool
  deriving DecidableEq, Repr

/-- The tree: an association list keyed by action sequences, standing in
for the Python dictionary `self.tree` (unique keys, insertion order kept). -/
abbrev Tree (σ : Type) := List (Key × Node σ)

/-- The handler (Evaluator) interface the engine is parameterized by,
mirroring the functions listed in the source docstring. -/
structure Handler (σ : Type) where
  root : σ
  num_actions : σ → ℕ
  new_state : ℕ → σ → σ
  value : List σ → List ℚ
  policy : σ → List ℚ
  next_possible_states : σ → List σ
  is_solution : σ → Bool

variable {σ : Type}

/-- Dictionary lookup `self.tree[key]`, returning `none` where the source
raises `KeyError` (which the source uses as control flow). -/
def treeFind (t : Tree σ) (k : Key) : Option (Node σ) :=
  match t with
  | [] => none
  | p :: rest => if p.1 = k then some p.2 else treeFind rest k

/-- Dictionary write `self.tree[key] = node` / `self.tree.update(...)`:
replace the binding if the key is present, otherwise add it. -/
def treeSet (t : Tree σ) (k : Key) (n : Node σ) : Tree σ :=
  match t with
  | [] => [(k, n)]
  | p :: rest => if p.1 = k then (k, n) :: rest else p :: treeSet rest k n

/-- Elementwise selection score `node['values'] + 10*node['policy']/node['visits']`
(line 65 of the source); the factor 10 is the hard-coded exploration weight. -/
def selectionScores (node : Node σ) : List ℚ :=
  List.zipWith (fun v q => v + q) node.values
    (List.zipWith (fun p w => 10 * p / w) node.policy node.visits)

/-- Normalization `choice / sum(choice)` used to turn scores into the
probability vector handed to `np.random.choice`. -/
def normalizeQ (l : List ℚ) : List ℚ :=
  l.map (fun x => x / l.sum)

/-- Node creation (lines 81-85 of the source): unit visits, batched value
call on the fan-out states, prior policy, terminal flag. -/
def mkNode (h : Handler σ) (state : σ) : Node σ :=
  { state := state
  , visits := List.replicate (h.num_actions state) 1
  , values := h.value (h.next_possible_states state)
  , policy := h.policy state
  , stop := h.is_solution state }

/-- Result of one descent step: updated tree, random counter, key, stop flag. -/
structure DownResult (σ : Type) where
  tree : Tree σ
  g : ℕ
  key : Key
  stop : Bool
  deriving Repr

/-- `_down_one_step` (lines 54-87).  If the key has a node, draw an action
from the normalized selection scores and either return the existing child
(with its stored stop flag) or create it from the transition state; if the
key has no node we are at the root (first call of a search) and the root
node is created.  The draw `np.random.choice(n, p)` appears as
`samp g n p`; it advances the random counter exactly when the source draws. -/
def downOneStep (h : Handler σ) (samp : ℕ → ℕ → List ℚ → ℕ)
    (t : Tree σ) (g : ℕ) (key : Key) : DownResult σ :=
  match treeFind t key with
  | some node =>
    let choice := selectionScores node
    let action := samp g (h.num_actions node.state) (normalizeQ choice)
    let key' := key ++ [action]
    match treeFind t key' with
    | some node' => ⟨t, g + 1, key', node'.stop⟩
    | none =>
      let state := h.new_state action node.state
      let node'' := mkNode h state
      ⟨treeSet t key' node'', g + 1, key', node''.stop⟩
  | none =>
    let node := mkNode h h.root
    ⟨treeSet t [] node, g, [], node.stop⟩

/-- Inner product `values @ visits` (numpy `@` on the aligned vectors). -/
def dotQ (a b : List ℚ) : ℚ :=
  (List.zipWith (fun x y => x * y) a b).sum

/-- One ascent iteration of `_all_the_way_up` at a node that has an
incoming `action` (lines 104-120): increment `visits[action]` by the
visits buffer, recompute the visits buffer as the new total, update
`values[action]` with the values buffer divided by the already-incremented
count, recompute the values buffer as the inner product, store the node.
A missing key would raise `KeyError` in the source; that branch is
unreachable from `search` and returns the tree unchanged with zero buffers. -/
def upStep (t : Tree σ) (key : Key) (action : ℕ) (vb valb : ℚ) :
    Tree σ × ℚ × ℚ :=
  match treeFind t key with
  | none => (t, 0, 0)
  | some node =>
    let visits := node.visits.set action (node.visits.getD action 0 + vb)
    let vb' := visits.sum
    let values := node.values.set action
      (node.values.getD action 0 + valb / visits.getD action 0)
    let valb' := dotQ values visits
    (treeSet t key { node with visits := visits, values := values }, vb', valb')

/-- The bottom iteration of `_all_the_way_up`: the buffers start at 0 and
the slot updates are skipped (the `NameError` branch of the source, since
no action has been popped yet), so only the buffer recomputation happens. -/
def upBottom (t : Tree σ) (key : Key) : ℚ × ℚ :=
  match treeFind t key with
  | none => (0, 0)
  | some node => (node.visits.sum, dotQ node.values node.visits)

/-- The remaining ascent iterations, driven by the reversed remaining key:
the head of `rk` is the action popped from the end of the key, and
`rk.reverse` after the pop is the parent key at which the update lands.
The recursion stops after the root (empty key) has been processed,
mirroring the `IndexError` break of the source. -/
def upAux (t : Tree σ) : List ℕ → ℚ → ℚ → Tree σ
  | [], _, _ => t
  | a :: rest, vb, valb =>
    let r := upStep t rest.reverse a vb valb
    upAux r.1 rest r.2.1 r.2.2

/-- `_all_the_way_up` (lines 91-128): process the bottom node, then walk
to the root popping the last action at each step. -/
def allTheWayUp (t : Tree σ) (bottom : Key) : Tree σ :=
  let b := upBottom t bottom
  upAux t bottom.reverse b.1 b.2

/-- Result of one simulation's descent: tree, random counter, bottom key. -/
structure DescendResult (σ : Type) where
  tree : Tree σ
  g : ℕ
  key : Key
  deriving Repr

/-- Terminal-stop visit inflation (line 151):
`self.tree[key]['visits'] += num_actions(state) ** (_max_steps - step)`,
a scalar broadcast that adds the power to every entry of the visits vector.
A missing key would raise `KeyError`; unreachable from `search`. -/
def inflateTerminal (h : Handler σ) (t : Tree σ) (key : Key) (e : ℕ) : Tree σ :=
  match treeFind t key with
  | none => t
  | some node =>
    treeSet t key
      { node with visits :=
          node.visits.map (fun v => v + (h.num_actions node.state : ℚ) ^ e) }

/-- The inner `while True` loop of `search` (lines 147-155).  The source
counts `step` upward and exits at `step == _max_steps`; here `fuel`
carries the remaining iterations `_max_steps - step` (so `fuel = 0` is
exactly the source's `step == _max_steps` exit), while `step` itself is
still threaded for the inflation exponent `_max_steps - step`. -/
def descendLoop (h : Handler σ) (samp : ℕ → ℕ → List ℚ → ℕ) (ms : ℕ) :
    ℕ → Tree σ → ℕ → Key → ℕ → DescendResult σ
  | fuel, t, g, key, step =>
    let r := downOneStep h samp t g key
    if r.stop then ⟨inflateTerminal h r.tree r.key (ms - step), r.g, r.key⟩
    else
      match fuel with
      | 0 => ⟨r.tree, r.g, r.key⟩
      | fuel' + 1 => descendLoop h samp ms fuel' r.tree r.g r.key (step + 1)

/-- The simulation loop of `search` (lines 144-157): `ns` simulations, each
one descent from the root key `()` at step 0 followed by one ascent. -/
def searchLoop (h : Handler σ) (samp : ℕ → ℕ → List ℚ → ℕ) (ms : ℕ) :
    ℕ → Tree σ → ℕ → Tree σ × ℕ
  | 0, t, g => (t, g)
  | n + 1, t, g =>
    let d := descendLoop h samp ms ms t g [] 0
    searchLoop h samp ms n (allTheWayUp d.tree d.key) d.g

/-- Python's `x or default` applied to the optional call parameters
(lines 140-141): `None` and `0` are falsy and fall back to the engine
default; any other integer (including negatives) is kept. -/
def resolveParam (x : Option ℤ) (d : ℤ) : ℤ :=
  match x with
  | none => d
  | some v => if v = 0 then d else v

/-- `search` (lines 132-165): resolve the parameters with the `or`
fallback, reset the tree, run the simulations, then read the root node's
visits, raise them to `1/tau` (the source fixes `tau = 1`, so the exponent
is 1) and renormalize.  The root lookup `self.tree[()]` raises `KeyError`
when the tree is still empty (resolved simulation count ≤ 0), hence the
`Option` result.  Negative resolved counts make `range` empty, which
`Int.toNat` reproduces; the loop itself is modelled for the contract's
nonnegative resolved `max_steps`. -/
def search (h : Handler σ) (samp : ℕ → ℕ → List ℚ → ℕ) (g : ℕ)
    (max_steps num_simulations : Option ℤ) (selfMs selfNs : ℤ) :
    Option (List ℚ) :=
  let ms := resolveParam max_steps selfMs
  let ns := resolveParam num_simulations selfNs
  let r := searchLoop h samp ms.toNat ns.toNat [] g
  match treeFind r.1 [] with
  | none => none
  | some rootNode =>
    let unnorm := rootNode.visits.map (fun v => v ^ (1 : ℕ))
    some (unnorm.map (fun x => x / unnorm.sum))

/-- A sampler that always draws action 0 (one possible draw of
`np.random.choice` whenever action 0 has positive probability). -/
def samp0 : ℕ → ℕ → List ℚ → ℕ := fun _ _ _ => 0

/-- Concrete evaluator: two legal actions everywhere, root is terminal. -/
def H1 : Handler Unit :=
  { root := ()
  , num_actions := fun _ => 2
  , new_state := fun _ _ => ()
  , value := fun l => l.map (fun _ => 0)
  , policy := fun _ => [1/2, 1/2]
  , next_possible_states := fun _ => [(), ()]
  , is_solution := fun _ => true }

/-- Concrete evaluator: zero legal actions, root is terminal. -/
def H0 : Handler Unit :=
  { root := ()
  , num_actions := fun _ => 0
  , new_state := fun _ _ => ()
  , value := fun _ => []
  , policy := fun _ => []
  , next_possible_states := fun _ => []
  , is_solution := fun _ => true }

/-- Concrete evaluator: two legal actions everywhere, never terminal. -/
def H3 : Handler ℕ :=
  { root := 0
  , num_actions := fun _ => 2
  , new_state := fun a s => 2 * s + a + 1
  , value := fun l => l.map (fun _ => 1/2)
  , policy := fun _ => [1/2, 1/2]
  , next_possible_states := fun s => [2 * s + 1, 2 * s + 2]
  , is_solution := fun _ => false }

/-! ### Association-list (dictionary) lemmas -/

theorem treeFind_treeSet_self (t : Tree σ) (k : Key) (n : Node σ) :
    treeFind (treeSet t k n) k = some n := by
  induction t with
  | nil => simp [treeSet, treeFind]
  | cons p rest ih =>
    by_cases hp : p.1 = k
    · simp [treeSet, hp, treeFind]
    · simp [treeSet, hp, treeFind, ih]

theorem treeFind_treeSet_of_ne (t : Tree σ) (k k' : Key) (n : Node σ)
    (hk : k' ≠ k) : treeFind (treeSet t k n) k' = treeFind t k' := by
  induction t with
  | nil => simp [treeSet, treeFind, Ne.symm hk]
  | cons p rest ih =>
    by_cases hp : p.1 = k
    · subst hp
      simp [treeSet, treeFind, Ne.symm hk]
    · rw [treeSet, if_neg hp]
      by_cases hp' : p.1 = k'
      · simp [treeFind, hp']
      · simp [treeFind, hp', ih]

theorem mem_treeSet (t : Tree σ) (k : Key) (n : Node σ) (p : Key × Node σ)
    (hp : p ∈ treeSet t k n) : p = (k, n) ∨ p ∈ t := by
  induction t with
  | nil => simpa [treeSet] using hp
  | cons q rest ih =>
    by_cases hq : q.1 = k
    · rw [treeSet] at hp
      simp only [hq, if_pos rfl] at hp
      rcases List.mem_cons.mp hp with h | h
      · exact Or.inl h
      · exact Or.inr (List.mem_cons_of_mem _ h)
    · rw [treeSet] at hp
      simp only [hq, if_neg hq] at hp
      rcases List.mem_cons.mp hp with h | h
      · exact Or.inr (h ▸ List.mem_cons_self q rest)
      · rcases ih h with h' | h'
        · exact Or.inl h'
        · exact Or.inr (List.mem_cons_of_mem _ h')

theorem treeFind_isSome_of_mem (t : Tree σ) (p : Key × Node σ) (hp : p ∈ t) :
    (treeFind t p.1).isSome := by
  induction t with
  | nil => cases hp
  | cons q rest ih =>
    rcases List.mem_cons.mp hp with h | h
    · subst h
      simp [treeFind]
    · by_cases hq : q.1 = p.1
      · simp [treeFind, hq]
      · simpa [treeFind, hq] using ih h

theorem length_treeSet_of_isSome (t : Tree σ) (k : Key) (n : Node σ)
    (hs : (treeFind t k).isSome) : (treeSet t k n).length = t.length := by
  induction t with
  | nil => simp [treeFind] at hs
  | cons p rest ih =>
    by_cases hp : p.1 = k
    · simp [treeSet, hp]
    · rw [treeFind, if_neg hp] at hs
      simp [treeSet, hp, ih hs]

theorem length_treeSet_le (t : Tree σ) (k : Key) (n : Node σ) :
    (treeSet t k n).length ≤ t.length + 1 := by
  induction t with
  | nil => simp [treeSet]
  | cons p rest ih =>
    by_cases hp : p.1 = k
    · simp [treeSet, hp]
    · simpa [treeSet, hp] using Nat.succ_le_succ ih

theorem treeFind_isSome_treeSet (t : Tree σ) (k k' : Key) (n : Node σ)
    (hs : (treeFind t k').isSome) : (treeFind (treeSet t k n) k').isSome := by
  by_cases hk : k' = k
  · subst hk
    simp [treeFind_treeSet_self]
  · rwa [treeFind_treeSet_of_ne t k k' n hk]

/-- The key list of a tree (dictionary key set, in order). -/
def treeKeys (t : Tree σ) : List Key := t.map Prod.fst

theorem mem_treeKeys_treeSet (t : Tree σ) (k : Key) (n : Node σ) (x : Key)
    (hx : x ∈ treeKeys (treeSet t k n)) : x = k ∨ x ∈ treeKeys t := by
  rcases List.mem_map.mp hx with ⟨p, hp, hpx⟩
  rcases mem_treeSet t k n p hp with h | h
  · left
    rw [← hpx, h]
  · right
    exact hpx ▸ List.mem_map_of_mem Prod.fst h

theorem nodup_treeKeys_treeSet (t : Tree σ) (k : Key) (n : Node σ)
    (hn : (treeKeys t).Nodup) : (treeKeys (treeSet t k n)).Nodup := by
  induction t with
  | nil => simp [treeSet, treeKeys]
  | cons p rest ih =>
    rw [treeKeys, List.map_cons, List.nodup_cons] at hn
    by_cases hp : p.1 = k
    · rw [treeSet, if_pos hp, treeKeys, List.map_cons, List.nodup_cons]
      exact ⟨hp ▸ hn.1, hn.2⟩
    · rw [treeSet, if_neg hp, treeKeys, List.map_cons, List.nodup_cons]
      refine ⟨fun hmem => ?_, ih hn.2⟩
      rcases mem_treeKeys_treeSet rest k n p.1 hmem with h | h
      · exact hp h
      · exact hn.1 h

/-! ### List arithmetic helpers -/

theorem sum_map_div_eq (l : List ℚ) (s : ℚ) :
    (l.map (fun x => x / s)).sum = l.sum / s := by
  induction l with
  | nil => simp
  | cons x xs ih => simp [ih, add_div]

theorem sum_map_add_const (l : List ℚ) (c : ℚ) :
    (l.map (fun v => v + c)).sum = l.sum + l.length * c := by
  induction l with
  | nil => simp
  | cons x xs ih =>
    simp only [List.map_cons, List.sum_cons, ih, List.length_cons]
    push_cast
    ring

theorem length_le_sum_of_one_le (l : List ℚ) (hl : ∀ x ∈ l, 1 ≤ x) :
    (l.length : ℚ) ≤ l.sum := by
  induction l with
  | nil => simp
  | cons x xs ih =>
    simp only [List.length_cons, List.sum_cons]
    push_cast
    have hx : 1 ≤ x := hl x (List.mem_cons_self x xs)
    have hxs : (xs.length : ℚ) ≤ xs.sum :=
      ih (fun y hy => hl y (List.mem_cons_of_mem x hy))
    linarith

theorem map_pow_one (l : List ℚ) : l.map (fun v => v ^ (1 : ℕ)) = l := by
  simp [pow_one]

theorem mem_of_treeFind (t : Tree σ) (k : Key) (n : Node σ)
    (hf : treeFind t k = some n) : (k, n) ∈ t := by
  induction t with
  | nil => simp [treeFind] at hf
  | cons p rest ih =>
    by_cases hp : p.1 = k
    · rw [treeFind, if_pos hp] at hf
      have h2 := Option.some.inj hf
      have hpkn : p = (k, n) := by
        cases p
        simp_all
      rw [← hpkn]
      exact List.mem_cons_self p rest
    · rw [treeFind, if_neg hp] at hf
      exact List.mem_cons_of_mem _ (ih hf)

/-! ### Engine invariants -/

/-- Every stored visits entry is at least 1 (claim C10's invariant). -/
def VisitsGE1 (t : Tree σ) : Prop :=
  ∀ p ∈ t, ∀ v ∈ p.2.visits, (1 : ℚ) ≤ v

/-- Every stored visits vector has one entry per legal action of its state. -/
def VisitsShape (h : Handler σ) (t : Tree σ) : Prop :=
  ∀ p ∈ t, p.2.visits.length = h.num_actions p.2.state

/-- The node stored at the empty key, if any, holds the handler's root state. -/
def RootState (h : Handler σ) (t : Tree σ) : Prop :=
  ∀ n, treeFind t [] = some n → n.state = h.root

/-- The bundle of structural invariants maintained by every engine operation. -/
structure Inv (h : Handler σ) (t : Tree σ) : Prop where
  ge1 : VisitsGE1 t
  shape : VisitsShape h t
  rootState : RootState h t
  nodup : (treeKeys t).Nodup

theorem inv_nil (h : Handler σ) : Inv h ([] : Tree σ) := by
  refine ⟨?_, ?_, ?_, ?_⟩
  · intro p hp
    cases hp
  · intro p hp
    cases hp
  · intro n hn
    simp [treeFind] at hn
  · simp [treeKeys]

theorem inv_treeSet (h : Handler σ) (t : Tree σ) (k : Key) (n : Node σ)
    (inv : Inv h t)
    (hge : ∀ v ∈ n.visits, (1 : ℚ) ≤ v)
    (hsh : n.visits.length = h.num_actions n.state)
    (hroot : k = [] → n.state = h.root) : Inv h (treeSet t k n) := by
  refine ⟨?_, ?_, ?_, nodup_treeKeys_treeSet t k n inv.nodup⟩
  · intro p hp v hv
    rcases mem_treeSet t k n p hp with hpe | hpm
    · rw [hpe] at hv
      exact hge v hv
    · exact inv.ge1 p hpm v hv
  · intro p hp
    rcases mem_treeSet t k n p hp with hpe | hpm
    · rw [hpe]
      exact hsh
    · exact inv.shape p hpm
  · intro m hm
    by_cases hk : k = []
    · subst hk
      rw [treeFind_treeSet_self] at hm
      rw [← Option.some.inj hm]
      exact hroot rfl
    · rw [treeFind_treeSet_of_ne t k [] n (fun he => hk he.symm)] at hm
      exact inv.rootState m hm

theorem mkNode_visits_ge_one (h : Handler σ) (s : σ) :
    ∀ v ∈ (mkNode h s).visits, (1 : ℚ) ≤ v := by
  intro v hv
  rw [mkNode] at hv
  simp only at hv
  rw [List.eq_of_mem_replicate hv]

theorem mkNode_shape (h : Handler σ) (s : σ) :
    (mkNode h s).visits.length = h.num_actions (mkNode h s).state := by
  simp [mkNode]

theorem inv_downOneStep (h : Handler σ) (samp : ℕ → ℕ → List ℚ → ℕ)
    (t : Tree σ) (g : ℕ) (key : Key) (inv : Inv h t) :
    Inv h (downOneStep h samp t g key).tree := by
  rw [downOneStep]
  cases hf : treeFind t key with
  | none =>
    exact inv_treeSet h t [] (mkNode h h.root) inv
      (mkNode_visits_ge_one h h.root) (mkNode_shape h h.root) (fun _ => rfl)
  | some node =>
    simp only
    cases hf2 : treeFind t
        (key ++ [samp g (h.num_actions node.state)
          (normalizeQ (selectionScores node))]) with
    | some node' => exact inv
    | none =>
      refine inv_treeSet h t _ _ inv (mkNode_visits_ge_one h _) (mkNode_shape h _)
        (fun he => absurd he (by simp))

theorem inv_upStep (h : Handler σ) (t : Tree σ) (key : Key) (action : ℕ)
    (vb valb : ℚ) (inv : Inv h t) (hvb : 0 ≤ vb) :
    Inv h (upStep t key action vb valb).1 ∧
      0 ≤ (upStep t key action vb valb).2.1 := by
  rw [upStep]
  cases hf : treeFind t key with
  | none => exact ⟨inv, le_refl 0⟩
  | some node =>
    simp only
    have hmem := mem_of_treeFind t key node hf
    have hge : ∀ v ∈ node.visits.set action (node.visits.getD action 0 + vb),
        (1 : ℚ) ≤ v := by
      intro v hv
      by_cases ha : action < node.visits.length
      · rcases List.mem_or_eq_of_mem_set hv with hm | he
        · exact inv.ge1 (key, node) hmem v hm
        · rw [he, List.getD_eq_getElem node.visits 0 ha]
          have h1 : (1 : ℚ) ≤ node.visits[action] :=
            inv.ge1 (key, node) hmem _ (List.getElem_mem ha)
          linarith
      · rw [List.set_eq_of_length_le (Nat.le_of_not_lt ha)] at hv
        exact inv.ge1 (key, node) hmem v hv
    refine ⟨inv_treeSet h t key _ inv hge ?_ ?_, ?_⟩
    · simpa [List.length_set] using inv.shape (key, node) hmem
    · intro hk
      exact inv.rootState node (hk ▸ hf)
    · refine List.sum_nonneg ?_
      intro x hx
      exact le_trans zero_le_one (hge x hx)

theorem upBottom_nonneg {h : Handler σ} (t : Tree σ) (key : Key)
    (inv : Inv h t) : 0 ≤ (upBottom t key).1 := by
  rw [upBottom]
  cases hf : treeFind t key with
  | none => exact le_refl 0
  | some node =>
    refine List.sum_nonneg ?_
    intro x hx
    exact le_trans zero_le_one (inv.ge1 (key, node) (mem_of_treeFind t key node hf) x hx)

theorem inv_upAux (h : Handler σ) (rk : List ℕ) :
    ∀ (t : Tree σ) (vb valb : ℚ), Inv h t → 0 ≤ vb →
      Inv h (upAux t rk vb valb) := by
  induction rk with
  | nil =>
    intro t vb valb inv hvb
    exact inv
  | cons a rest ih =>
    intro t vb valb inv hvb
    rw [upAux]
    have hstep := inv_upStep h t rest.reverse a vb valb inv hvb
    exact ih _ _ _ hstep.1 hstep.2

theorem inv_allTheWayUp (h : Handler σ) (t : Tree σ) (bottom : Key)
    (inv : Inv h t) : Inv h (allTheWayUp t bottom) := by
  rw [allTheWayUp]
  exact inv_upAux h bottom.reverse t _ _ inv (upBottom_nonneg t bottom inv)

theorem inv_inflateTerminal (h : Handler σ) (t : Tree σ) (key : Key) (e : ℕ)
    (inv : Inv h t) : Inv h (inflateTerminal h t key e) := by
  rw [inflateTerminal]
  cases hf : treeFind t key with
  | none => exact inv
  | some node =>
    have hmem := mem_of_treeFind t key node hf
    refine inv_treeSet h t key _ inv ?_ ?_ ?_
    · intro v hv
      rcases List.mem_map.mp hv with ⟨w, hw, hwv⟩
      have h1 := inv.ge1 (key, node) hmem w hw
      have h2 : (0 : ℚ) ≤ (h.num_actions node.state : ℚ) ^ e :=
        pow_nonneg (by positivity) e
      rw [← hwv]
      linarith
    · simpa using inv.shape (key, node) hmem
    · intro hk
      exact inv.rootState node (hk ▸ hf)

theorem inv_descendLoop (h : Handler σ) (samp : ℕ → ℕ → List ℚ → ℕ) (ms : ℕ) :
    ∀ (fuel : ℕ) (t : Tree σ) (g : ℕ) (key : Key) (step : ℕ), Inv h t →
      Inv h (descendLoop h samp ms fuel t g key step).tree := by
  intro fuel
  induction fuel with
  | zero =>
    intro t g key step inv
    rw [descendLoop]
    have hd := inv_downOneStep h samp t g key inv
    by_cases hs : (downOneStep h samp t g key).stop
    · simp only [hs, if_true]
      exact inv_inflateTerminal h _ _ _ hd
    · simp only [hs, if_false]
      exact hd
  | succ fuel ih =>
    intro t g key step inv
    rw [descendLoop]
    have hd := inv_downOneStep h samp t g key inv
    by_cases hs : (downOneStep h samp t g key).stop
    · simp only [hs, if_true]
      exact inv_inflateTerminal h _ _ _ hd
    · simp only [hs, if_false]
      exact ih _ _ _ _ hd

theorem inv_searchLoop (h : Handler σ) (samp : ℕ → ℕ → List ℚ → ℕ) (ms : ℕ) :
    ∀ (ns : ℕ) (t : Tree σ) (g : ℕ), Inv h t →
      Inv h (searchLoop h samp ms ns t g).1 := by
  intro ns
  induction ns with
  | zero =>
    intro t g inv
    exact inv
  | succ n ih =>
    intro t g inv
    rw [searchLoop]
    exact ih _ _ (inv_allTheWayUp h _ _ (inv_descendLoop h samp ms ms t g [] 0 inv))

/-! ### Root presence -/

theorem present_downOneStep (h : Handler σ) (samp : ℕ → ℕ → List ℚ → ℕ)
    (t : Tree σ) (g : ℕ) (key : Key) (hp : (treeFind t []).isSome) :
    (treeFind (downOneStep h samp t g key).tree []).isSome := by
  rw [downOneStep]
  cases hf : treeFind t key with
  | none => simp [treeFind_treeSet_self]
  | some node =>
    simp only
    cases hf2 : treeFind t
        (key ++ [samp g (h.num_actions node.state)
          (normalizeQ (selectionScores node))]) with
    | some node' => exact hp
    | none => exact treeFind_isSome_treeSet t _ [] _ hp

theorem present_downOneStep_root (h : Handler σ) (samp : ℕ → ℕ → List ℚ → ℕ)
    (t : Tree σ) (g : ℕ) :
    (treeFind (downOneStep h samp t g []).tree []).isSome := by
  cases hf : treeFind t [] with
  | none =>
    rw [downOneStep, hf]
    simp [treeFind_treeSet_self]
  | some node =>
    exact present_downOneStep h samp t g [] (by rw [hf]; rfl)

theorem present_inflateTerminal (h : Handler σ) (t : Tree σ) (key : Key)
    (e : ℕ) (hp : (treeFind t []).isSome) :
    (treeFind (inflateTerminal h t key e) []).isSome := by
  rw [inflateTerminal]
  cases hf : treeFind t key with
  | none => exact hp
  | some node => exact treeFind_isSome_treeSet t _ [] _ hp

theorem present_upStep (t : Tree σ) (key : Key) (action : ℕ) (vb valb : ℚ)
    (hp : (treeFind t []).isSome) :
    (treeFind (upStep t key action vb valb).1 []).isSome := by
  rw [upStep]
  cases hf : treeFind t key with
  | none => exact hp
  | some node => exact treeFind_isSome_treeSet t _ [] _ hp

theorem present_upAux (rk : List ℕ) :
    ∀ (t : Tree σ) (vb valb : ℚ), (treeFind t []).isSome →
      (treeFind (upAux t rk vb valb) []).isSome := by
  induction rk with
  | nil =>
    intro t vb valb hp
    exact hp
  | cons a rest ih =>
    intro t vb valb hp
    rw [upAux]
    exact ih _ _ _ (present_upStep t rest.reverse a vb valb hp)

theorem present_allTheWayUp (t : Tree σ) (bottom : Key)
    (hp : (treeFind t []).isSome) :
    (treeFind (allTheWayUp t bottom) []).isSome := by
  rw [allTheWayUp]
  exact present_upAux bottom.reverse t _ _ hp

theorem present_descendLoop (h : Handler σ) (samp : ℕ → ℕ → List ℚ → ℕ)
    (ms : ℕ) :
    ∀ (fuel : ℕ) (t : Tree σ) (g : ℕ) (key : Key) (step : ℕ),
      (treeFind t []).isSome →
      (treeFind (descendLoop h samp ms fuel t g key step).tree []).isSome := by
  intro fuel
  induction fuel with
  | zero =>
    intro t g key step hp
    rw [descendLoop]
    have hd := present_downOneStep h samp t g key hp
    by_cases hs : (downOneStep h samp t g key).stop
    · simp only [hs, if_true]
      exact present_inflateTerminal h _ _ _ hd
    · simp only [hs, if_false]
      exact hd
  | succ fuel ih =>
    intro t g key step hp
    rw [descendLoop]
    have hd := present_downOneStep h samp t g key hp
    by_cases hs : (downOneStep h samp t g key).stop
    · simp only [hs, if_true]
      exact present_inflateTerminal h _ _ _ hd
    · simp only [hs, if_false]
      exact ih _ _ _ _ hd

theorem present_descendLoop_rootKey (h : Handler σ)
    (samp : ℕ → ℕ → List ℚ → ℕ) (ms : ℕ) (fuel : ℕ) (t : Tree σ) (g : ℕ)
    (step : ℕ) :
    (treeFind (descendLoop h samp ms fuel t g [] step).tree []).isSome := by
  cases fuel with
  | zero =>
    rw [descendLoop]
    have hd := present_downOneStep_root h samp t g
    by_cases hs : (downOneStep h samp t g []).stop
    · simp only [hs, if_true]
      exact present_inflateTerminal h _ _ _ hd
    · simp only [hs, if_false]
      exact hd
  | succ fuel =>
    rw [descendLoop]
    have hd := present_downOneStep_root h samp t g
    by_cases hs : (downOneStep h samp t g []).stop
    · simp only [hs, if_true]
      exact present_inflateTerminal h _ _ _ hd
    · simp only [hs, if_false]
      exact present_descendLoop h samp ms fuel _ _ _ _ hd

theorem present_searchLoop (h : Handler σ) (samp : ℕ → ℕ → List ℚ → ℕ)
    (ms : ℕ) :
    ∀ (ns : ℕ) (t : Tree σ) (g : ℕ), (treeFind t []).isSome →
      (treeFind (searchLoop h samp ms ns t g).1 []).isSome := by
  intro ns
  induction ns with
  | zero =>
    intro t g hp
    exact hp
  | succ n ih =>
    intro t g hp
    rw [searchLoop]
    exact ih _ _ (present_allTheWayUp _ _
      (present_descendLoop h samp ms ms t g [] 0 hp))

theorem rootPresent_searchLoop (h : Handler σ) (samp : ℕ → ℕ → List ℚ → ℕ)
    (ms : ℕ) (ns : ℕ) (g : ℕ) (hns : 1 ≤ ns) :
    (treeFind (searchLoop h samp ms ns [] g).1 []).isSome := by
  cases ns with
  | zero => cases hns
  | succ n =>
    rw [searchLoop]
    exact present_searchLoop h samp ms n _ _ (present_allTheWayUp _ _
      (present_descendLoop_rootKey h samp ms ms [] g 0))

/-! ### Claim C10 -/

/-- C10: every entry of every node's visits vector equals 1 at node creation
(the created vector is all ones, one per legal action) and never falls below 1
at any point reachable by the search loop, so no stored entry is ever 0 and
the divisions by `visits[a]` in the selection score and by `visits[action]`
in the backpropagation update never divide by zero. -/
theorem c10_visits_ge_one (h : Handler σ) (samp : ℕ → ℕ → List ℚ → ℕ)
    (ms ns g : ℕ) :
    (∀ s : σ, (mkNode h s).visits = List.replicate (h.num_actions s) 1) ∧
    (∀ p ∈ (searchLoop h samp ms ns [] g).1, ∀ v ∈ p.2.visits,
      (1 : ℚ) ≤ v ∧ v ≠ 0) := by
  constructor
  · intro s
    rfl
  · intro p hp v hv
    have h1 := (inv_searchLoop h samp ms ns [] g (inv_nil h)).ge1 p hp v hv
    exact ⟨h1, ne_of_gt (lt_of_lt_of_le zero_lt_one h1)⟩

/-- Witness for C10 at a concrete run: the tree after one simulation on the
terminal two-action evaluator holds the inflated root, and its entry 9
satisfies the bound. -/
theorem c10_visits_ge_one_witness :
    (searchLoop H1 samp0 3 1 [] 0).1 =
      [([], (⟨(), [9, 9], [0, 0], [1/2, 1/2], true⟩ : Node Unit))] ∧
    ((1 : ℚ) ≤ 9 ∧ (9 : ℚ) ≠ 0) := by
  have heval : (searchLoop H1 samp0 3 1 [] 0).1 =
      [([], (⟨(), [9, 9], [0, 0], [1/2, 1/2], true⟩ : Node Unit))] := by
    norm_num [searchLoop, descendLoop, downOneStep, allTheWayUp, upBottom,
      upAux, upStep, inflateTerminal, treeFind, treeSet, mkNode,
      selectionScores, normalizeQ, dotQ, H1, samp0, List.replicate_succ,
      List.set_cons_zero, List.set_cons_succ]
  refine ⟨heval, (c10_visits_ge_one H1 samp0 3 1 0).2
    ([], (⟨(), [9, 9], [0, 0], [1/2, 1/2], true⟩ : Node Unit)) ?_ 9 ?_⟩
  · rw [heval]
    exact List.mem_cons_self _ _
  · simp

/-! ### Claim C1 -/

/-- C1 counterexample: a completed `search()` call whose returned entries do
not sum to 1.  With a terminal root that has zero legal actions and a single
simulation, the call completes and returns the empty sequence, whose sum is
0, not 1 (the source divides the empty visits vector by its zero sum). -/
theorem c1_zero_action_root_counterexample :
    search H0 samp0 0 (some 3) (some 1) 10 100 = some [] ∧
    ¬ (([] : List ℚ).sum = 1) := by
  constructor
  · norm_num [search, searchLoop, descendLoop, downOneStep, allTheWayUp,
      upBottom, upAux, upStep, inflateTerminal, treeFind, treeSet, mkNode,
      selectionScores, normalizeQ, dotQ, resolveParam, H0, samp0]
  · norm_num

/-- C1 as amended: provided the root has at least one legal action (and at
least one simulation is performed, i.e. the call completes with a root node),
the returned sequence is the root's final visits vector raised entrywise to
the power 1/tau (tau = 1 in the source) and renormalized, so it has length
equal to the root's legal-action count, nonnegative entries, and sum 1. -/
theorem c1_distribution_validity (h : Handler σ) (samp : ℕ → ℕ → List ℚ → ℕ)
    (g : ℕ) (msOpt nsOpt : Option ℤ) (eMs eNs : ℤ)
    (hns : 1 ≤ (resolveParam nsOpt eNs).toNat)
    (hk : 0 < h.num_actions h.root) :
    ∃ rootN l,
      treeFind (searchLoop h samp (resolveParam msOpt eMs).toNat
          (resolveParam nsOpt eNs).toNat [] g).1 [] = some rootN ∧
      search h samp g msOpt nsOpt eMs eNs = some l ∧
      l = normalizeQ (rootN.visits.map (fun v => v ^ (1 : ℕ))) ∧
      l.length = h.num_actions h.root ∧
      (∀ x ∈ l, 0 ≤ x) ∧
      l.sum = 1 := by
  have hpres := rootPresent_searchLoop h samp (resolveParam msOpt eMs).toNat
    (resolveParam nsOpt eNs).toNat g hns
  obtain ⟨rootN, hroot⟩ := Option.isSome_iff_exists.mp hpres
  have hinv := inv_searchLoop h samp (resolveParam msOpt eMs).toNat
    (resolveParam nsOpt eNs).toNat [] g (inv_nil h)
  have hmem := mem_of_treeFind _ _ _ hroot
  have hstate : rootN.state = h.root := hinv.rootState rootN hroot
  have hlen : rootN.visits.length = h.num_actions h.root := by
    have := hinv.shape ([], rootN) hmem
    simpa [hstate] using this
  have hge : ∀ v ∈ rootN.visits, (1 : ℚ) ≤ v :=
    fun v hv => hinv.ge1 ([], rootN) hmem v hv
  have hsum_pos : 0 < rootN.visits.sum := by
    have hlq := length_le_sum_of_one_le rootN.visits hge
    have hlpos : (0 : ℚ) < (rootN.visits.length : ℚ) := by
      rw [hlen]
      exact_mod_cast hk
    linarith
  refine ⟨rootN, normalizeQ rootN.visits, hroot, ?_, ?_, ?_, ?_, ?_⟩
  · rw [search]
    simp only
    rw [hroot]
    simp only [map_pow_one]
    rfl
  · rw [map_pow_one]
  · rw [normalizeQ, List.length_map, hlen]
  · intro x hx
    rw [normalizeQ] at hx
    obtain ⟨v, hv, hvx⟩ := List.mem_map.mp hx
    rw [← hvx]
    exact div_nonneg (le_trans zero_le_one (hge v hv)) (le_of_lt hsum_pos)
  · rw [normalizeQ, sum_map_div_eq, div_self (ne_of_gt hsum_pos)]

/-- Witness for C1's amended statement at a concrete run. -/
theorem c1_distribution_validity_witness :
    1 ≤ (resolveParam (some 1) 100).toNat ∧ 0 < H3.num_actions H3.root ∧
    (∃ rootN l,
      treeFind (searchLoop H3 samp0 (resolveParam (some 1) 10).toNat
          (resolveParam (some 1) 100).toNat [] 0).1 [] = some rootN ∧
      search H3 samp0 0 (some 1) (some 1) 10 100 = some l ∧
      l = normalizeQ (rootN.visits.map (fun v => v ^ (1 : ℕ))) ∧
      l.length = H3.num_actions H3.root ∧
      (∀ x ∈ l, 0 ≤ x) ∧
      l.sum = 1) :=
  ⟨by decide, by decide,
    c1_distribution_validity H3 samp0 0 (some 1) (some 1) 10 100
      (by decide) (by decide)⟩

/-! ### Claim C2 -/

/-- The selection score exactly as the claim words it, indexed over the
node's legal actions: `score[a] = values[a] + 10 * policy[a] / visits[a]`. -/
def claimScore (node : Node σ) : List ℚ :=
  (List.range node.visits.length).map
    (fun a => node.values.getD a 0 + 10 * node.policy.getD a 0 / node.visits.getD a 0)

theorem selectionScores_eq_claimScore (node : Node σ)
    (hv : node.values.length = node.visits.length)
    (hp : node.policy.length = node.visits.length) :
    selectionScores node = claimScore node := by
  apply List.ext_getElem
  · simp [selectionScores, claimScore, hv, hp]
  · intro i h1 h2
    have hi : i < node.visits.length := by
      simpa [claimScore] using h2
    simp only [selectionScores, List.getElem_zipWith, claimScore,
      List.getElem_map, List.getElem_range]
    rw [List.getD_eq_getElem _ _ (hv ▸ hi), List.getD_eq_getElem _ _ (hp ▸ hi),
      List.getD_eq_getElem _ _ hi]

/-- C2: a descent step that starts from a key whose node already exists draws
the next action through the sampler (the embedding of `np.random.choice`,
advancing the random state), applied to the probability vector obtained by
normalizing `score[a] = values[a] + 10 * policy[a] / visits[a]` over the
node's legal actions; the drawn action is appended to the key. -/
theorem c2_stochastic_selection (h : Handler σ) (samp : ℕ → ℕ → List ℚ → ℕ)
    (t : Tree σ) (g : ℕ) (key : Key) (node : Node σ)
    (hf : treeFind t key = some node)
    (hv : node.values.length = node.visits.length)
    (hp : node.policy.length = node.visits.length) :
    (downOneStep h samp t g key).key =
      key ++ [samp g (h.num_actions node.state) (normalizeQ (claimScore node))] ∧
    (downOneStep h samp t g key).g = g + 1 := by
  rw [downOneStep, hf]
  simp only
  rw [selectionScores_eq_claimScore node hv hp]
  cases hf2 : treeFind t
      (key ++ [samp g (h.num_actions node.state)
        (normalizeQ (claimScore node))]) with
  | some node' => exact ⟨rfl, rfl⟩
  | none => exact ⟨rfl, rfl⟩

/-- Witness for C2 at a concrete tree holding only a root node. -/
theorem c2_stochastic_selection_witness :
    treeFind [([], (⟨0, [1, 1], [1/2, 1/2], [1/2, 1/2], false⟩ : Node ℕ))] [] =
      some (⟨0, [1, 1], [1/2, 1/2], [1/2, 1/2], false⟩ : Node ℕ) ∧
    ((downOneStep H3 samp0
        [([], (⟨0, [1, 1], [1/2, 1/2], [1/2, 1/2], false⟩ : Node ℕ))] 5 []).key =
      [] ++ [samp0 5
        (H3.num_actions (⟨0, [1, 1], [1/2, 1/2], [1/2, 1/2], false⟩ : Node ℕ).state)
        (normalizeQ (claimScore (⟨0, [1, 1], [1/2, 1/2], [1/2, 1/2], false⟩ : Node ℕ)))] ∧
     (downOneStep H3 samp0
        [([], (⟨0, [1, 1], [1/2, 1/2], [1/2, 1/2], false⟩ : Node ℕ))] 5 []).g = 5 + 1) :=
  ⟨rfl, c2_stochastic_selection H3 samp0
    [([], (⟨0, [1, 1], [1/2, 1/2], [1/2, 1/2], false⟩ : Node ℕ))] 5 []
    (⟨0, [1, 1], [1/2, 1/2], [1/2, 1/2], false⟩ : Node ℕ) rfl rfl rfl⟩

/-! ### Claim C3 -/

/-- The per-node backpropagation update exactly as the claim words it: first
increment `visits[action]` by the incoming visit accumulator, then add
`values_below / visits[action]` (already-incremented count) to
`values[action]`, and only after both updates recompute the outgoing
accumulators as the visits sum and the values-visits dot product. -/
def upStepSpec (t : Tree σ) (key : Key) (action : ℕ) (vb valb : ℚ) :
    Tree σ × ℚ × ℚ :=
  match treeFind t key with
  | none => (t, 0, 0)
  | some node =>
    let visits := node.visits.set action (node.visits.getD action 0 + vb)
    let values := node.values.set action
      (node.values.getD action 0 + valb / visits.getD action 0)
    let vb' := visits.sum
    let valb' := dotQ values visits
    (treeSet t key { node with visits := visits, values := values }, vb', valb')

/-- The ascent as the claim words it, walking from the stopping node's parent
up to the root by dropping the last action of the key at each move. -/
def upAuxSpec (t : Tree σ) : List ℕ → ℚ → ℚ → Tree σ
  | [], _, _ => t
  | a :: rest, vb, valb =>
    let r := upStepSpec t rest.reverse a vb valb
    upAuxSpec r.1 rest r.2.1 r.2.2

/-- The whole backpropagation pass as the claim words it: both accumulators
start at 0 at the stopping node, which receives no slot update and only
recomputes the outgoing accumulators from its own vectors, after which the
walk ascends to the root and stops once the key is empty. -/
def allTheWayUpSpec (t : Tree σ) (bottom : Key) : Tree σ :=
  let vb0 : ℚ := 0
  let valb0 : ℚ := 0
  let b :=
    match treeFind t bottom with
    | none => (vb0, valb0)
    | some node => (node.visits.sum, dotQ node.values node.visits)
  upAuxSpec t bottom.reverse b.1 b.2

theorem upStepSpec_eq_upStep (t : Tree σ) (key : Key) (action : ℕ)
    (vb valb : ℚ) : upStepSpec t key action vb valb = upStep t key action vb valb := by
  rw [upStepSpec, upStep]

theorem upAuxSpec_eq_upAux (rk : List ℕ) :
    ∀ (t : Tree σ) (vb valb : ℚ), upAuxSpec t rk vb valb = upAux t rk vb valb := by
  induction rk with
  | nil =>
    intro t vb valb
    rfl
  | cons a rest ih =>
    intro t vb valb
    rw [upAuxSpec, upAux, upStepSpec_eq_upStep]
    exact ih _ _ _

/-- C3: the backpropagation pass described by the claim (accumulators start
at 0 at the stopping node; every other node on the path to the root first
receives the visit increment, then the running-mean value update with the
already-incremented count, then recomputes both accumulators from its own
vectors before the key drops its last action, stopping at the empty key)
computes exactly the source's `_all_the_way_up`. -/
theorem c3_backprop_refinement (t : Tree σ) (bottom : Key) :
    allTheWayUpSpec t bottom = allTheWayUp t bottom := by
  rw [allTheWayUpSpec, allTheWayUp, upBottom, upAuxSpec_eq_upAux]

/-! ### Claim C4 -/

/-- C4: when the appended key already has a node, the descent step returns
the stored node's terminal flag with the tree unchanged (no node is created
and no evaluator function other than the action count influences the
result: any handler agreeing on `num_actions` produces the identical step),
and the search loop keeps tree keys unique, so one action sequence always
addresses one single node. -/
theorem c4_memoization (h h₂ : Handler σ) (samp : ℕ → ℕ → List ℚ → ℕ)
    (t : Tree σ) (g : ℕ) (key : Key) (node node' : Node σ) (ms ns g' : ℕ)
    (hf : treeFind t key = some node)
    (hf2 : treeFind t (key ++ [samp g (h.num_actions node.state)
      (normalizeQ (selectionScores node))]) = some node') :
    downOneStep h samp t g key =
      ⟨t, g + 1, key ++ [samp g (h.num_actions node.state)
        (normalizeQ (selectionScores node))], node'.stop⟩ ∧
    (h₂.num_actions = h.num_actions →
      downOneStep h₂ samp t g key = downOneStep h samp t g key) ∧
    (treeKeys (searchLoop h samp ms ns [] g').1).Nodup := by
  refine ⟨?_, ?_, ?_⟩
  · rw [downOneStep, hf]
    simp only
    rw [hf2]
  · intro heq
    rw [downOneStep, downOneStep, hf]
    simp only [heq]
    rw [hf2]
  · exact (inv_searchLoop h samp ms ns [] g' (inv_nil h)).nodup

/-- Witness for C4 at a concrete tree holding a root and its first child;
the alternative handler differs in transition, values, policy and terminal
flag but agrees on the action count. -/
theorem c4_memoization_witness :
    treeFind [([], (⟨0, [1, 1], [1/2, 1/2], [1/2, 1/2], false⟩ : Node ℕ)),
        ([0], (⟨1, [1, 1], [1/2, 1/2], [1/2, 1/2], false⟩ : Node ℕ))] [] =
      some (⟨0, [1, 1], [1/2, 1/2], [1/2, 1/2], false⟩ : Node ℕ) ∧
    (downOneStep H3 samp0
        [([], (⟨0, [1, 1], [1/2, 1/2], [1/2, 1/2], false⟩ : Node ℕ)),
         ([0], (⟨1, [1, 1], [1/2, 1/2], [1/2, 1/2], false⟩ : Node ℕ))] 0 [] =
      ⟨[([], (⟨0, [1, 1], [1/2, 1/2], [1/2, 1/2], false⟩ : Node ℕ)),
        ([0], (⟨1, [1, 1], [1/2, 1/2], [1/2, 1/2], false⟩ : Node ℕ))], 0 + 1,
        [] ++ [samp0 0
          (H3.num_actions (⟨0, [1, 1], [1/2, 1/2], [1/2, 1/2], false⟩ : Node ℕ).state)
          (normalizeQ (selectionScores
            (⟨0, [1, 1], [1/2, 1/2], [1/2, 1/2], false⟩ : Node ℕ)))],
        (⟨1, [1, 1], [1/2, 1/2], [1/2, 1/2], false⟩ : Node ℕ).stop⟩ ∧
      (H3.num_actions = H3.num_actions →
        downOneStep H3 samp0
          [([], (⟨0, [1, 1], [1/2, 1/2], [1/2, 1/2], false⟩ : Node ℕ)),
           ([0], (⟨1, [1, 1], [1/2, 1/2], [1/2, 1/2], false⟩ : Node ℕ))] 0 [] =
        downOneStep H3 samp0
          [([], (⟨0, [1, 1], [1/2, 1/2], [1/2, 1/2], false⟩ : Node ℕ)),
           ([0], (⟨1, [1, 1], [1/2, 1/2], [1/2, 1/2], false⟩ : Node ℕ))] 0 []) ∧
      (treeKeys (searchLoop H3 samp0 1 1 [] 0).1).Nodup) :=
  ⟨rfl, c4_memoization H3 H3 samp0
    [([], (⟨0, [1, 1], [1/2, 1/2], [1/2, 1/2], false⟩ : Node ℕ)),
     ([0], (⟨1, [1, 1], [1/2, 1/2], [1/2, 1/2], false⟩ : Node ℕ))] 0 []
    (⟨0, [1, 1], [1/2, 1/2], [1/2, 1/2], false⟩ : Node ℕ)
    (⟨1, [1, 1], [1/2, 1/2], [1/2, 1/2], false⟩ : Node ℕ) 1 1 0 rfl rfl⟩

/-! ### Claim C6 -/

/-- C6 counterexample: supplying `max_steps = 0` does not fail validation;
the `or` fallback silently replaces it with the engine default (here 10) and
the call completes normally, returning a distribution. -/
theorem c6_zero_param_counterexample :
    resolveParam (some 0) 10 = 10 ∧
    search H1 samp0 0 (some 0) (some 1) 10 100 = some [1/2, 1/2] := by
  constructor
  · decide
  · have h10 : Int.toNat 10 = 10 := rfl
    norm_num [search, searchLoop, descendLoop, downOneStep, allTheWayUp,
      upBottom, upAux, upStep, inflateTerminal, treeFind, treeSet, mkNode,
      selectionScores, normalizeQ, dotQ, resolveParam, H1, samp0, h10,
      List.replicate_succ]

/-- C6 as amended: no validation of the call parameters exists.  A supplied
`0` (like an absent parameter) is silently replaced by the engine-level
default through the Python `or` fallback, any nonzero integer — negative
ones included — is used as given, and a call with `max_steps = 0` behaves
identically to a call with the parameter absent. -/
theorem c6_param_resolution (α : Type) (d : ℤ) :
    resolveParam none d = d ∧
    resolveParam (some 0) d = d ∧
    (∀ x : ℤ, x ≠ 0 → resolveParam (some x) d = x) ∧
    (∀ (h : Handler α) (samp : ℕ → ℕ → List ℚ → ℕ) (g : ℕ)
        (nsOpt : Option ℤ) (eMs eNs : ℤ),
      search h samp g (some 0) nsOpt eMs eNs =
        search h samp g none nsOpt eMs eNs) := by
  refine ⟨rfl, rfl, ?_, ?_⟩
  · intro x hx
    rw [resolveParam, if_neg hx]
  · intro h samp g nsOpt eMs eNs
    have hres : resolveParam (some 0) eMs = resolveParam none eMs := rfl
    rw [search, search, hres]

/-- Witness for C6's amended statement at concrete parameters. -/
theorem c6_param_resolution_witness :
    resolveParam (some 5) 10 = 5 ∧
    search H1 samp0 0 (some 0) (some 1) 10 100 =
      search H1 samp0 0 none (some 1) 10 100 :=
  ⟨(c6_param_resolution Unit 10).2.2.1 5 (by decide),
   (c6_param_resolution Unit 10).2.2.2 H1 samp0 0 (some 1) 10 100⟩

/-! ### Claim C5 -/

/-- C5 counterexample: with a terminal two-action root and `max_steps = 3`,
the terminal stop adds `2 ^ 3 = 8` to EACH of the two visits entries
(the scalar broadcast of the source), so the total visit mass goes from 2
at creation to 18 — an increase of 16, not the claimed
`num_actions ^ remaining = 8`. -/
theorem c5_inflation_counterexample :
    treeFind (searchLoop H1 samp0 3 1 [] 0).1 [] =
      some (⟨(), [9, 9], [0, 0], [1/2, 1/2], true⟩ : Node Unit) ∧
    (mkNode H1 ()).visits.sum = 2 ∧
    (([9, 9] : List ℚ).sum - 2 = 16 ∧ (16 : ℚ) ≠ 2 ^ 3) := by
  refine ⟨?_, ?_, by norm_num, by norm_num⟩
  · norm_num [searchLoop, descendLoop, downOneStep, allTheWayUp, upBottom,
      upAux, upStep, inflateTerminal, treeFind, treeSet, mkNode,
      selectionScores, normalizeQ, dotQ, H1, samp0, List.replicate_succ,
      List.set_cons_zero, List.set_cons_succ]
  · norm_num [mkNode, H1, List.replicate_succ]

/-- C5 as amended: on a terminal stop at step `step`, every ENTRY of the
terminal node's visits vector is increased by
`num_actions(state) ^ (max_steps - step)`, so the node's total visit mass
increases by `num_actions(state) ^ (max_steps - step + 1)`; a depth-limit
stop (descent budget exhausted with `stop = false`) performs no inflation. -/
theorem c5_terminal_inflation (h : Handler σ) (samp : ℕ → ℕ → List ℚ → ℕ)
    (ms fuel : ℕ) (t : Tree σ) (g : ℕ) (key : Key) (step : ℕ) (node : Node σ)
    (hstop : (downOneStep h samp t g key).stop = true)
    (hfind : treeFind (downOneStep h samp t g key).tree
      (downOneStep h samp t g key).key = some node)
    (hshape : node.visits.length = h.num_actions node.state) :
    descendLoop h samp ms fuel t g key step =
      ⟨treeSet (downOneStep h samp t g key).tree
        (downOneStep h samp t g key).key
        { node with visits := (node.visits.map
            (fun v => v + (h.num_actions node.state : ℚ) ^ (ms - step))) },
        (downOneStep h samp t g key).g, (downOneStep h samp t g key).key⟩ ∧
    (node.visits.map
        (fun v => v + (h.num_actions node.state : ℚ) ^ (ms - step))).sum =
      node.visits.sum + (h.num_actions node.state : ℚ) ^ (ms - step + 1) ∧
    (∀ (t' : Tree σ) (g' : ℕ) (key' : Key) (step' : ℕ),
      (downOneStep h samp t' g' key').stop = false →
      descendLoop h samp ms 0 t' g' key' step' =
        ⟨(downOneStep h samp t' g' key').tree, (downOneStep h samp t' g' key').g,
          (downOneStep h samp t' g' key').key⟩) := by
  refine ⟨?_, ?_, ?_⟩
  · rw [descendLoop.eq_def]
    simp only [hstop, if_true]
    rw [inflateTerminal, hfind]
  · rw [sum_map_add_const, hshape, pow_succ]
    ring
  · intro t' g' key' step' hstop'
    rw [descendLoop]
    simp only [hstop', Bool.false_eq_true, if_false]

/-- Witness for C5's amended statement at a concrete terminal run. -/
theorem c5_terminal_inflation_witness :
    (downOneStep H1 samp0 [] 0 []).stop = true ∧
    treeFind (downOneStep H1 samp0 [] 0 []).tree
      (downOneStep H1 samp0 [] 0 []).key = some (mkNode H1 ()) ∧
    descendLoop H1 samp0 3 3 [] 0 [] 0 =
      ⟨treeSet (downOneStep H1 samp0 [] 0 []).tree
        (downOneStep H1 samp0 [] 0 []).key
        { (mkNode H1 ()) with visits := ((mkNode H1 ()).visits.map
            (fun v => v + (H1.num_actions (mkNode H1 ()).state : ℚ) ^ (3 - 0))) },
        (downOneStep H1 samp0 [] 0 []).g, (downOneStep H1 samp0 [] 0 []).key⟩ :=
  ⟨rfl, rfl,
    (c5_terminal_inflation H1 samp0 3 3 [] 0 [] 0 (mkNode H1 ()) rfl rfl rfl).1⟩

/-! ### Claim C9 -/

theorem sum_set_getD_add (l : List ℚ) (i : ℕ) (x : ℚ) (hi : i < l.length) :
    (l.set i (l.getD i 0 + x)).sum = l.sum + x := by
  induction l generalizing i with
  | nil => simp at hi
  | cons a as ih =>
    cases i with
    | zero =>
      simp only [List.set_cons_zero, List.getD_cons_zero, List.sum_cons]
      ring
    | succ n =>
      have hn : n < as.length := by simpa using hi
      simp only [List.set_cons_succ, List.getD_cons_succ, List.sum_cons, ih n hn]
      ring

/-- C9 counterexample: after one single simulation on a two-action
never-terminal evaluator (so exactly one simulation's descent passed through
the root), the root's visits vector is `[3, 1]` — backpropagation increments
the taken slot by the child's whole visits sum of 2 — so the visits sum is
4, not 1. -/
theorem c9_visit_sum_counterexample :
    treeFind (searchLoop H3 samp0 1 1 [] 0).1 [] =
      some (⟨0, [3, 1], [5/6, 1/2], [1/2, 1/2], false⟩ : Node ℕ) ∧
    ([3, 1] : List ℚ).sum = 4 ∧ (4 : ℚ) ≠ 1 := by
  refine ⟨?_, by norm_num, by norm_num⟩
  norm_num [searchLoop, descendLoop, downOneStep, allTheWayUp, upBottom,
    upAux, upStep, inflateTerminal, treeFind, treeSet, mkNode,
    selectionScores, normalizeQ, dotQ, H3, samp0, List.replicate_succ,
    List.set_cons_zero, List.set_cons_succ]

/-- C9 as amended: a node's visits sum equals its legal-action count at
creation (all entries start at 1, one per action), and a backpropagation
update at a node adds the incoming accumulator `visits_below` — the child's
entire current visits sum, not 1 — to the taken slot, so the node's visits
sum, also recomputed as the outgoing accumulator, becomes the old sum plus
`visits_below`; the sum therefore does not track the number of simulations
that passed through the node. -/
theorem c9_visit_accounting (h : Handler σ) (t : Tree σ) (key : Key)
    (action : ℕ) (vb valb : ℚ) (node : Node σ) (s : σ)
    (hf : treeFind t key = some node)
    (ha : action < node.visits.length) :
    (mkNode h s).visits.sum = (h.num_actions s : ℚ) ∧
    treeFind (upStep t key action vb valb).1 key =
      some { node with
        visits := (node.visits.set action (node.visits.getD action 0 + vb)),
        values := (node.values.set action (node.values.getD action 0 +
          valb / (node.visits.set action
            (node.visits.getD action 0 + vb)).getD action 0)) } ∧
    (node.visits.set action (node.visits.getD action 0 + vb)).sum =
      node.visits.sum + vb ∧
    (upStep t key action vb valb).2.1 = node.visits.sum + vb := by
  refine ⟨?_, ?_, sum_set_getD_add node.visits action vb ha, ?_⟩
  · simp [mkNode, List.sum_replicate]
  · rw [upStep, hf]
    simp only
    rw [treeFind_treeSet_self]
  · rw [upStep, hf]
    simp only
    exact sum_set_getD_add node.visits action vb ha

/-- Witness for C9's amended statement at a concrete node and update. -/
theorem c9_visit_accounting_witness :
    treeFind [([], (⟨0, [1, 1], [1/2, 1/2], [1/2, 1/2], false⟩ : Node ℕ))] [] =
      some (⟨0, [1, 1], [1/2, 1/2], [1/2, 1/2], false⟩ : Node ℕ) ∧
    0 < (⟨0, [1, 1], [1/2, 1/2], [1/2, 1/2], false⟩ : Node ℕ).visits.length ∧
    ((mkNode H3 5).visits.sum = (H3.num_actions 5 : ℚ) ∧
      treeFind (upStep
        [([], (⟨0, [1, 1], [1/2, 1/2], [1/2, 1/2], false⟩ : Node ℕ))]
        [] 0 2 1).1 [] =
        some { (⟨0, [1, 1], [1/2, 1/2], [1/2, 1/2], false⟩ : Node ℕ) with
          visits := (((⟨0, [1, 1], [1/2, 1/2], [1/2, 1/2], false⟩ : Node ℕ)).visits.set 0
            ((((⟨0, [1, 1], [1/2, 1/2], [1/2, 1/2], false⟩ : Node ℕ)).visits.getD 0 0) + 2)),
          values := (((⟨0, [1, 1], [1/2, 1/2], [1/2, 1/2], false⟩ : Node ℕ)).values.set 0
            ((((⟨0, [1, 1], [1/2, 1/2], [1/2, 1/2], false⟩ : Node ℕ)).values.getD 0 0) +
              1 / ((((⟨0, [1, 1], [1/2, 1/2], [1/2, 1/2], false⟩ : Node ℕ)).visits.set 0
                ((((⟨0, [1, 1], [1/2, 1/2], [1/2, 1/2], false⟩ : Node ℕ)).visits.getD 0 0) + 2)).getD 0 0))) } ∧
      (((⟨0, [1, 1], [1/2, 1/2], [1/2, 1/2], false⟩ : Node ℕ)).visits.set 0
        ((((⟨0, [1, 1], [1/2, 1/2], [1/2, 1/2], false⟩ : Node ℕ)).visits.getD 0 0) + 2)).sum =
        (⟨0, [1, 1], [1/2, 1/2], [1/2, 1/2], false⟩ : Node ℕ).visits.sum + 2 ∧
      (upStep [([], (⟨0, [1, 1], [1/2, 1/2], [1/2, 1/2], false⟩ : Node ℕ))]
        [] 0 2 1).2.1 =
        (⟨0, [1, 1], [1/2, 1/2], [1/2, 1/2], false⟩ : Node ℕ).visits.sum + 2) :=
  ⟨rfl, by norm_num,
    c9_visit_accounting H3
      [([], (⟨0, [1, 1], [1/2, 1/2], [1/2, 1/2], false⟩ : Node ℕ))] [] 0 2 1
      (⟨0, [1, 1], [1/2, 1/2], [1/2, 1/2], false⟩ : Node ℕ) 5 rfl (by norm_num)⟩

/-! ### Claim C8 -/

/-- C8 counterexample: one single simulation on a two-action never-terminal
root descends below the root (one simulation still descends `max_steps`
levels) and backpropagation already distinguishes the sampled action, so the
returned distribution is `[3/4, 1/4]`, not the uniform `[1/2, 1/2]`. -/
theorem c8_single_sim_not_uniform :
    search H3 samp0 0 (some 1) (some 1) 10 100 = some [3/4, 1/4] ∧
    ([3/4, 1/4] : List ℚ) ≠ [1/2, 1/2] := by
  constructor
  · norm_num [search, searchLoop, descendLoop, downOneStep, allTheWayUp,
      upBottom, upAux, upStep, inflateTerminal, treeFind, treeSet, mkNode,
      selectionScores, normalizeQ, dotQ, resolveParam, H3, samp0,
      List.replicate_succ, List.set_cons_zero, List.set_cons_succ]
  · norm_num

/-- C8 as amended: with `num_simulations = 1` and a TERMINAL root with `k`
legal actions, the single simulation never leaves the root (its expansion
plus the terminal inflation, a uniform scalar broadcast, are the only
updates), so the returned distribution is uniform over the `k` actions,
regardless of the evaluator's policy and value outputs; with a
non-terminal root the single simulation still descends and
backpropagation already distinguishes the sampled action. -/
theorem c8_terminal_root_uniform (h : Handler σ) (samp : ℕ → ℕ → List ℚ → ℕ)
    (g : ℕ) (msOpt nsOpt : Option ℤ) (eMs eNs : ℤ)
    (hterm : h.is_solution h.root = true)
    (hns : (resolveParam nsOpt eNs).toNat = 1)
    (hk : 0 < h.num_actions h.root) :
    search h samp g msOpt nsOpt eMs eNs =
      some (List.replicate (h.num_actions h.root)
        (1 / (h.num_actions h.root : ℚ))) := by
  have hdown : downOneStep h samp [] g [] =
      ⟨[([], mkNode h h.root)], g, [], true⟩ := by
    rw [downOneStep]
    simp [treeFind, treeSet, mkNode, hterm]
  have hinf : ∀ e : ℕ, inflateTerminal h [([], mkNode h h.root)] [] e =
      [([], { (mkNode h h.root) with visits := ((mkNode h h.root).visits.map
        (fun v => v + (h.num_actions h.root : ℚ) ^ e)) })] := by
    intro e
    rw [inflateTerminal]
    simp [treeFind, treeSet, mkNode]
  have hdesc : ∀ ms : ℕ, descendLoop h samp ms ms [] g [] 0 =
      ⟨[([], { (mkNode h h.root) with visits := ((mkNode h h.root).visits.map
        (fun v => v + (h.num_actions h.root : ℚ) ^ ms)) })], g, []⟩ := by
    intro ms
    rw [descendLoop.eq_def]
    dsimp only
    rw [hdown]
    simp only [Nat.sub_zero, if_true]
    rw [hinf ms]
  have hup : ∀ N : Node σ, allTheWayUp [([], N)] [] = [([], N)] := fun N => rfl
  have hloop : ∀ ms : ℕ, searchLoop h samp ms 1 [] g =
      (allTheWayUp (descendLoop h samp ms ms [] g [] 0).tree
        (descendLoop h samp ms ms [] g [] 0).key,
       (descendLoop h samp ms ms [] g [] 0).g) := fun ms => rfl
  rw [search]
  simp only [hns]
  rw [hloop, hdesc, hup]
  simp only [treeFind, eq_self_iff_true, if_true]
  simp only [map_pow_one]
  have hmkv : (mkNode h h.root).visits =
      List.replicate (h.num_actions h.root) 1 := rfl
  rw [hmkv, List.map_replicate]
  simp only [List.sum_replicate, nsmul_eq_mul, List.map_replicate]
  have hc : (0 : ℚ) ≤ (h.num_actions h.root : ℚ) ^ (resolveParam msOpt eMs).toNat :=
    pow_nonneg (Nat.cast_nonneg _) _
  have hkq : (h.num_actions h.root : ℚ) ≠ 0 :=
    Nat.cast_ne_zero.mpr (Nat.pos_iff_ne_zero.mp hk)
  have harith : (1 + (h.num_actions h.root : ℚ) ^ (resolveParam msOpt eMs).toNat) /
      ((h.num_actions h.root : ℚ) *
        (1 + (h.num_actions h.root : ℚ) ^ (resolveParam msOpt eMs).toNat)) =
      1 / (h.num_actions h.root : ℚ) := by
    rw [div_eq_div_iff (by positivity) (by positivity)]
    ring
  rw [harith]

/-- Witness for C8's amended statement at the concrete terminal evaluator. -/
theorem c8_terminal_root_uniform_witness :
    H1.is_solution H1.root = true ∧ (resolveParam (some 1) 100).toNat = 1 ∧
    0 < H1.num_actions H1.root ∧
    search H1 samp0 0 (some 4) (some 1) 10 100 =
      some (List.replicate (H1.num_actions H1.root)
        (1 / (H1.num_actions H1.root : ℚ))) :=
  ⟨rfl, by decide, by decide,
    c8_terminal_root_uniform H1 samp0 0 (some 4) (some 1) 10 100 rfl
      (by decide) (by decide)⟩

/-! ### Claim C7 -/

theorem length_inflateTerminal_eq (h : Handler σ) (t : Tree σ) (key : Key)
    (e : ℕ) : (inflateTerminal h t key e).length = t.length := by
  rw [inflateTerminal]
  cases hf : treeFind t key with
  | none => rfl
  | some node => exact length_treeSet_of_isSome t key _ (by rw [hf]; rfl)

theorem length_upStep_eq (t : Tree σ) (key : Key) (action : ℕ)
    (vb valb : ℚ) : (upStep t key action vb valb).1.length = t.length := by
  rw [upStep]
  cases hf : treeFind t key with
  | none => rfl
  | some node => exact length_treeSet_of_isSome t key _ (by rw [hf]; rfl)

theorem length_upAux_eq (rk : List ℕ) :
    ∀ (t : Tree σ) (vb valb : ℚ), (upAux t rk vb valb).length = t.length := by
  induction rk with
  | nil =>
    intro t vb valb
    rfl
  | cons a rest ih =>
    intro t vb valb
    rw [upAux, ih]
    exact length_upStep_eq t rest.reverse a vb valb

theorem length_allTheWayUp_eq (t : Tree σ) (bottom : Key) :
    (allTheWayUp t bottom).length = t.length := by
  rw [allTheWayUp]
  exact length_upAux_eq bottom.reverse t _ _

theorem length_downOneStep_le (h : Handler σ) (samp : ℕ → ℕ → List ℚ → ℕ)
    (t : Tree σ) (g : ℕ) (key : Key) :
    (downOneStep h samp t g key).tree.length ≤ t.length + 1 := by
  rw [downOneStep]
  cases hf : treeFind t key with
  | none => exact length_treeSet_le t [] _
  | some node =>
    simp only
    cases hf2 : treeFind t
        (key ++ [samp g (h.num_actions node.state)
          (normalizeQ (selectionScores node))]) with
    | some node' => exact Nat.le_succ t.length
    | none => exact length_treeSet_le t _ _

theorem length_descendLoop_le (h : Handler σ) (samp : ℕ → ℕ → List ℚ → ℕ)
    (ms : ℕ) :
    ∀ (fuel : ℕ) (t : Tree σ) (g : ℕ) (key : Key) (step : ℕ),
      (descendLoop h samp ms fuel t g key step).tree.length ≤
        t.length + (fuel + 1) := by
  intro fuel
  induction fuel with
  | zero =>
    intro t g key step
    rw [descendLoop]
    have hd := length_downOneStep_le h samp t g key
    by_cases hs : (downOneStep h samp t g key).stop
    · simp only [hs, if_true]
      rw [length_inflateTerminal_eq]
      exact hd
    · simp only [hs, if_false]
      exact hd
  | succ fuel ih =>
    intro t g key step
    rw [descendLoop]
    have hd := length_downOneStep_le h samp t g key
    by_cases hs : (downOneStep h samp t g key).stop
    · simp only [hs, if_true]
      rw [length_inflateTerminal_eq]
      omega
    · simp only [hs, Bool.false_eq_true, if_false]
      have hrec := ih (downOneStep h samp t g key).tree
        (downOneStep h samp t g key).g (downOneStep h samp t g key).key (step + 1)
      omega

theorem length_searchLoop_le (h : Handler σ) (samp : ℕ → ℕ → List ℚ → ℕ)
    (ms : ℕ) :
    ∀ (ns : ℕ) (t : Tree σ) (g : ℕ),
      (searchLoop h samp ms ns t g).1.length ≤ t.length + ns * (ms + 1) := by
  intro ns
  induction ns with
  | zero =>
    intro t g
    simp [searchLoop]
  | succ n ih =>
    intro t g
    rw [searchLoop]
    calc (searchLoop h samp ms n
          (allTheWayUp (descendLoop h samp ms ms t g [] 0).tree
            (descendLoop h samp ms ms t g [] 0).key)
          (descendLoop h samp ms ms t g [] 0).g).1.length
        ≤ (allTheWayUp (descendLoop h samp ms ms t g [] 0).tree
            (descendLoop h samp ms ms t g [] 0).key).length + n * (ms + 1) :=
          ih _ _
      _ = (descendLoop h samp ms ms t g [] 0).tree.length + n * (ms + 1) := by
          rw [length_allTheWayUp_eq]
      _ ≤ (t.length + (ms + 1)) + n * (ms + 1) :=
          Nat.add_le_add_right (length_descendLoop_le h samp ms ms t g [] 0) _
      _ = t.length + (n + 1) * (ms + 1) := by ring

/-- Every key stored in the tree has length at most `L`. -/
def KeyLenLE (L : ℕ) (t : Tree σ) : Prop := ∀ p ∈ t, p.1.length ≤ L

theorem keyLenLE_treeSet (L : ℕ) (t : Tree σ) (k : Key) (n : Node σ)
    (hL : KeyLenLE L t) (hk : k.length ≤ L) : KeyLenLE L (treeSet t k n) := by
  intro p hp
  rcases mem_treeSet t k n p hp with hpe | hpm
  · rw [hpe]
    exact hk
  · exact hL p hpm

theorem keyLenLE_downOneStep (L : ℕ) (h : Handler σ)
    (samp : ℕ → ℕ → List ℚ → ℕ) (t : Tree σ) (g : ℕ) (key : Key)
    (hL : KeyLenLE L t) (hkey : key.length + 1 ≤ L) :
    KeyLenLE L (downOneStep h samp t g key).tree ∧
    (downOneStep h samp t g key).key.length ≤ key.length + 1 := by
  rw [downOneStep]
  cases hf : treeFind t key with
  | none =>
    exact ⟨keyLenLE_treeSet L t [] _ hL (Nat.zero_le L), Nat.zero_le _⟩
  | some node =>
    simp only
    cases hf2 : treeFind t
        (key ++ [samp g (h.num_actions node.state)
          (normalizeQ (selectionScores node))]) with
    | some node' =>
      refine ⟨hL, ?_⟩
      simp
    | none =>
      refine ⟨keyLenLE_treeSet L t _ _ hL ?_, ?_⟩ <;> simp [hkey]

theorem keyLenLE_upStep (L : ℕ) (t : Tree σ) (key : Key) (action : ℕ)
    (vb valb : ℚ) (hL : KeyLenLE L t) :
    KeyLenLE L (upStep t key action vb valb).1 := by
  rw [upStep]
  cases hf : treeFind t key with
  | none => exact hL
  | some node =>
    exact keyLenLE_treeSet L t key _ hL
      (hL (key, node) (mem_of_treeFind t key node hf))

theorem keyLenLE_upAux (L : ℕ) (rk : List ℕ) :
    ∀ (t : Tree σ) (vb valb : ℚ), KeyLenLE L t →
      KeyLenLE L (upAux t rk vb valb) := by
  induction rk with
  | nil =>
    intro t vb valb hL
    exact hL
  | cons a rest ih =>
    intro t vb valb hL
    rw [upAux]
    exact ih _ _ _ (keyLenLE_upStep L t rest.reverse a vb valb hL)

theorem keyLenLE_allTheWayUp (L : ℕ) (t : Tree σ) (bottom : Key)
    (hL : KeyLenLE L t) : KeyLenLE L (allTheWayUp t bottom) := by
  rw [allTheWayUp]
  exact keyLenLE_upAux L bottom.reverse t _ _ hL

theorem keyLenLE_inflateTerminal (L : ℕ) (h : Handler σ) (t : Tree σ)
    (key : Key) (e : ℕ) (hL : KeyLenLE L t) :
    KeyLenLE L (inflateTerminal h t key e) := by
  rw [inflateTerminal]
  cases hf : treeFind t key with
  | none => exact hL
  | some node =>
    exact keyLenLE_treeSet L t key _ hL
      (hL (key, node) (mem_of_treeFind t key node hf))

theorem keyLenLE_descendLoop (L : ℕ) (h : Handler σ)
    (samp : ℕ → ℕ → List ℚ → ℕ) (ms : ℕ) :
    ∀ (fuel : ℕ) (t : Tree σ) (g : ℕ) (key : Key) (step : ℕ),
      KeyLenLE L t → key.length + fuel + 1 ≤ L →
      KeyLenLE L (descendLoop h samp ms fuel t g key step).tree := by
  intro fuel
  induction fuel with
  | zero =>
    intro t g key step hL hkey
    rw [descendLoop]
    have hd := keyLenLE_downOneStep L h samp t g key hL (by omega)
    by_cases hs : (downOneStep h samp t g key).stop
    · simp only [hs, if_true]
      exact keyLenLE_inflateTerminal L h _ _ _ hd.1
    · simp only [hs, if_false]
      exact hd.1
  | succ fuel ih =>
    intro t g key step hL hkey
    rw [descendLoop]
    have hd := keyLenLE_downOneStep L h samp t g key hL (by omega)
    by_cases hs : (downOneStep h samp t g key).stop
    · simp only [hs, if_true]
      exact keyLenLE_inflateTerminal L h _ _ _ hd.1
    · simp only [hs, if_false]
      refine ih _ _ _ _ hd.1 ?_
      have := hd.2
      omega

theorem keyLenLE_searchLoop (h : Handler σ) (samp : ℕ → ℕ → List ℚ → ℕ)
    (ms : ℕ) :
    ∀ (ns : ℕ) (t : Tree σ) (g : ℕ), KeyLenLE (ms + 1) t →
      KeyLenLE (ms + 1) (searchLoop h samp ms ns t g).1 := by
  intro ns
  induction ns with
  | zero =>
    intro t g hL
    exact hL
  | succ n ih =>
    intro t g hL
    rw [searchLoop]
    refine ih _ _ (keyLenLE_allTheWayUp _ _ _ ?_)
    exact keyLenLE_descendLoop (ms + 1) h samp ms ms t g [] 0 hL (by simp)

/-- C7 counterexample: one simulation with `max_steps = 1` already stores 2
distinct nodes (the root and one child), exceeding the claimed bound
`num_simulations × max_steps = 1`. -/
theorem c7_node_count_counterexample :
    (searchLoop H3 samp0 1 1 [] 0).1.length = 2 ∧ ¬ (2 ≤ 1 * 1) := by
  constructor
  · norm_num [searchLoop, descendLoop, downOneStep, allTheWayUp, upBottom,
      upAux, upStep, inflateTerminal, treeFind, treeSet, mkNode,
      selectionScores, normalizeQ, dotQ, H3, samp0, List.replicate_succ,
      List.set_cons_zero, List.set_cons_succ]
  · norm_num

/-- C7 as amended: each simulation makes at most `max_steps + 1` descent
calls (the first call of the first simulation only creates the root), so
every stored path key has length at most `max_steps + 1` and the number of
distinct nodes created across all simulations is bounded by
`num_simulations × (max_steps + 1)`. -/
theorem c7_size_bounds (h : Handler σ) (samp : ℕ → ℕ → List ℚ → ℕ)
    (ms ns g : ℕ) :
    (searchLoop h samp ms ns [] g).1.length ≤ ns * (ms + 1) ∧
    (∀ p ∈ (searchLoop h samp ms ns [] g).1, p.1.length ≤ ms + 1) := by
  constructor
  · have hlen := length_searchLoop_le h samp ms ns [] g
    simpa using hlen
  · intro p hp
    refine keyLenLE_searchLoop h samp ms ns [] g ?_ p hp
    intro q hq
    cases hq

/-- Witness for C7's amended statement at a concrete run (2 nodes stored,
child key of length 1). -/
theorem c7_size_bounds_witness :
    (searchLoop H3 samp0 1 1 [] 0).1.length ≤ 1 * (1 + 1) ∧
    ([0] : Key).length ≤ 1 + 1 :=
  ⟨(c7_size_bounds H3 samp0 1 1 0).1,
   (c7_size_bounds H3 samp0 1 1 0).2
     ([0], (⟨1, [1, 1], [1/2, 1/2], [1/2, 1/2], false⟩ : Node ℕ))
     (by norm_num [searchLoop, descendLoop, downOneStep, allTheWayUp,
        upBottom, upAux, upStep, inflateTerminal, treeFind, treeSet, mkNode,
        selectionScores, normalizeQ, dotQ, H3, samp0, List.replicate_succ,
        List.set_cons_zero, List.set_cons_succ])⟩

end MCTS
